import Mathlib

/- Shallow embedding of src/skopt/samples/lhs.py (class Lhs): Latin hypercube
sampling with an optional criterion-optimization loop. Machine reals are
modelled as rationals. The external collaborators named by the spec (the
seeded random source, the space transforms, the pairwise-distance and
correlation primitives) enter the model as explicit function parameters.
Observable effects are recorded in an event trace. -/

deriving instance DecidableEq for Except

set_option allowUnsafeReducibility true

attribute [local semireducible] Rat.add Rat.sub Rat.neg Rat.mul Rat.div Rat.inv Rat.blt

namespace SkoptLhs

/-- Matrix of rationals, a list of rows. -/
abbrev Mat : Type := List (List ℚ)

/-- Entry access with total out-of-range defaulting, as an n by d array. -/
def entry (m : Mat) (i j : ℕ) : ℚ := (m.getD i []).getD j 0

/-- Observable effects of a generate call, recorded in order. -/
inductive Ev : Type where
  | rand (k : ℕ)
  | permuteCols
  | setTransf (t : String)
  | invTransf
  | transf
  | pdistCall
  | corrcoefCall
deriving DecidableEq

/-- The random_state argument: an int seed, or a live generator object
carrying its stream position (numpy generator objects mutate as they are
consumed, while an int is immutable). -/
inductive RState : Type where
  | intSeed (s : ℕ)
  | generatorAt (s p : ℕ)
deriving DecidableEq

/-- sklearn check_random_state: an int builds a fresh generator seeded by it,
at stream position 0; a generator object is returned as is. -/
def checkRandomState : RState → ℕ × ℕ
  | .intSeed s => (s, 0)
  | .generatorAt s p => (s, p)

/-- Consuming k draws advances a generator object; an int seed is immutable. -/
def advanceR : RState → ℕ → RState
  | .intSeed s, _ => .intSeed s
  | .generatorAt s p, k => .generatorAt s (p + k)

/-- The Lhs configuration object (source lines 34-38). criterion none models
Python None. -/
structure Lhs : Type where
  lhs_type : String
  criterion : Option String
  iterations : ℕ
deriving DecidableEq

/-- Source Lhs.__init__ (lines 34-38): stores the three fields and performs
no validation, so it never raises. -/
def lhsInit (lhs_type : String) (criterion : Option String) (iterations : ℕ) :
    Except String Lhs :=
  .ok ⟨lhs_type, criterion, iterations⟩

/-- Uniform draw matrix u = rng.rand(n_samples, n_dim), read off the seeded
stream uVal at the generator state derived from random_state. -/
def uFrom (uVal : ℕ → ℕ → ℚ) (rs : RState) (nDim : ℕ) : ℕ → ℕ → ℚ :=
  fun i j => uVal (checkRandomState rs).1 ((checkRandomState rs).2 + (i * nDim + j))

/-- Pre-permutation matrix h of _lhs_normalized (source lines 150-158).
x = linspace 0 1 (nSamples + 1) has x k = k / nSamples and diff x = 1 / nSamples,
so centered entries are 1/(2 nSamples) + i/nSamples and classic entries are
u i j / nSamples + i/nSamples. The uniform matrix u is drawn before this
dispatch and the centered branch ignores it. -/
def lhsRaw (lt : String) (u : ℕ → ℕ → ℚ) (nDim nSamples : ℕ) : Except String Mat :=
  if lt = "centered" then
    .ok ((List.range nSamples).map fun (i : ℕ) =>
      (List.range nDim).map fun _ => 1 / (2 * (nSamples : ℚ)) + (i : ℚ) / (nSamples : ℚ))
  else if lt = "classic" then
    .ok ((List.range nSamples).map fun (i : ℕ) =>
      (List.range nDim).map fun j => u i j * (1 / (nSamples : ℚ)) + (i : ℚ) / (nSamples : ℚ))
  else .error "Wrong lhs_type. Got "

/-- Modelled from the spec: random_permute_matrix is imported from
skopt/utils.py, which is not included under src/. Spec 4.2 ColumnPermuter:
for each column independently, draw a uniformly random permutation of row
indices from the seeded source and reorder that column by it; deterministic
given a seeded source. permOf stands for the external permutation draw,
keyed by the generator state (seed, position) and the column index. -/
def random_permute_matrix (permOf : ℕ → ℕ → ℕ → ℕ → ℕ) (h : Mat)
    (randomState : RState) : Mat × RState × List Ev :=
  let g := checkRandomState randomState
  let n := h.length
  let d := (h.headD []).length
  (((List.range n).map fun i =>
      (List.range d).map fun j => entry h (permOf g.1 g.2 j i) j),
    advanceR randomState (n * d), [.permuteCols])

/-- Source Lhs._lhs_normalized (lines 148-161). check_random_state re-creates
the generator from the random_state argument; u is drawn before the lhs_type
dispatch, so the rand event is emitted even when the lhs_type check fails;
on success the matrix is column-permuted, passing the same random_state. -/
def Lhs.lhs_normalized (uVal : ℕ → ℕ → ℚ) (permOf : ℕ → ℕ → ℕ → ℕ → ℕ)
    (self : Lhs) (nDim nSamples : ℕ) (randomState : RState) :
    Except String Mat × RState × List Ev :=
  let r1 := advanceR randomState (nSamples * nDim)
  match lhsRaw self.lhs_type (uFrom uVal randomState nDim) nDim nSamples with
  | .error e => (.error e, r1, [.rand (nSamples * nDim)])
  | .ok h =>
    let pr := random_permute_matrix permOf h r1
    (.ok pr.1, pr.2.1, .rand (nSamples * nDim) :: pr.2.2)

/-- Absolute value on the rationals, written out so it evaluates. -/
def absQ (v : ℚ) : ℚ := if v < 0 then -v else v

/-- np.min of a one-dimensional array; an empty array raises. -/
def npMin : List ℚ → Except String ℚ
  | [] => .error "zero-size array to reduction operation minimum"
  | a :: t => .ok (t.foldl min a)

/-- np.max of a one-dimensional array; an empty array raises. -/
def npMax : List ℚ → Except String ℚ
  | [] => .error "zero-size array to reduction operation maximum"
  | a :: t => .ok (t.foldl max a)

/-- Index pairs of an n by n array, row major. -/
def idxPairs (n : ℕ) : List (ℕ × ℕ) :=
  (List.range n).flatMap fun i => (List.range n).map fun j => (i, j)

/-- np.max(np.abs(r[r != 1])) from source line 99: the boolean mask keeps
every entry of the correlation matrix that is not exactly 1; this drops the
unit diagonal, but also any off-diagonal coefficient exactly equal to 1. -/
def maskedAbsMax (r : Mat) : Except String ℚ :=
  npMax (((idxPairs r.length).filter fun p => entry r p.1 p.2 != 1).map
    fun p => absQ (entry r p.1 p.2))

/-- np.max(np.abs(r - np.eye(r.shape[0]))) from source line 100. -/
def corrStoredScore (r : Mat) : Except String ℚ :=
  npMax ((idxPairs r.length).map
    fun p => absQ (entry r p.1 p.2 - (if p.1 = p.2 then 1 else 0)))

/-- Maximum absolute off-diagonal coefficient, written from the spec's words
for comparison with the two scores the source actually computes. -/
def maxAbsOffDiag (r : Mat) : Except String ℚ :=
  npMax (((idxPairs r.length).filter fun p => p.1 != p.2).map
    fun p => absQ (entry r p.1 p.2))

/-- The externally supplied search space as the generate code observes it:
its dimension count, whether it is partly categorical, and the transformer
configured on it at entry (space.get_transformer() at line 70). -/
structure SpaceDesc : Type where
  nDims : ℕ
  isPartlyCategorical : Bool
  initTransformer : String
deriving DecidableEq

/-- Transformer mode set at source lines 76 and 85. -/
def transNormalize : String := "normalize"

/-- Transformer mode built at source lines 72-74: identity overall, label
for Categorical dimensions. -/
def transCatInt : String := "identity+label"

/-- Running state of one optimizing-loop branch: the retained candidate, the
stored score (WithTop models np.inf), the generator state, the space's
current transformer mode, and the event trace so far. -/
structure LoopSt : Type where
  hOpt : Mat
  bestScore : WithTop ℚ
  rstate : RState
  trans : String
  evs : List Ev
deriving DecidableEq

/-- Loop outcome: an error aborts generate, carrying the message, the
transformer mode left on the space, and the trace. -/
abbrev LoopRes : Type := Except (String × String × List Ev) LoopSt

/-- One guarded loop step: errors propagate unchanged. -/
def stepE (f : LoopSt → LoopRes) : LoopRes → LoopRes
  | .error e => .error e
  | .ok st => f st

/-- for i in range(iterations): repeated application of the loop body. -/
def runLoop (f : LoopSt → LoopRes) (iters : ℕ) (st0 : LoopSt) : LoopRes :=
  (stepE f)^[iters] (.ok st0)

/-- Loop epilogue (source lines 145-146): restore the entry transformer and
return h_opt; an error propagates without the restore. -/
def finalizeLoop (transformer : String) :
    LoopRes → Except String Mat × String × List Ev
  | .error (e, t, evs) => (.error e, t, evs)
  | .ok st => (.ok st.hOpt, transformer, st.evs ++ [.setTransf transformer])

section Model

variable (uVal : ℕ → ℕ → ℚ) (permOf : ℕ → ℕ → ℕ → ℕ → ℕ)
variable (invT trT : String → Mat → Mat)
variable (pdistE : Mat → List ℚ) (corrcoefE : Mat → Mat)

/-- Candidate preparation shared by the three loop bodies (source lines
92-97, 110-115, 128-133): sample, set the normalize transformer, inverse
transform to domain values; on a partly categorical space additionally
switch to the label transformer and re-encode for scoring. -/
def candidatePrep (self : Lhs) (space : SpaceDesc) (nSamples : ℕ) (st : LoopSt) :
    Except (String × String × List Ev) (Mat × LoopSt) :=
  let res := self.lhs_normalized uVal permOf space.nDims nSamples st.rstate
  match res.1 with
  | .error e => .error (e, st.trans, st.evs ++ res.2.2)
  | .ok hm =>
    let h1 := invT transNormalize hm
    let evs1 := st.evs ++ res.2.2 ++ [.setTransf transNormalize, .invTransf]
    if space.isPartlyCategorical then
      .ok (trT transCatInt h1,
        ⟨st.hOpt, st.bestScore, res.2.1, transCatInt,
          evs1 ++ [.setTransf transCatInt, .transf]⟩)
    else
      .ok (h1, ⟨st.hOpt, st.bestScore, res.2.1, transNormalize, evs1⟩)

/-- Replacement of the retained candidate (source lines 101-104, 119-122,
138-141): h_opt = h.copy(); on a partly categorical space the stored copy is
decoded back to domain values with the label transformer. -/
def hOptStore (space : SpaceDesc) (h : Mat) : Mat × String × List Ev :=
  if space.isPartlyCategorical then
    (invT transCatInt h, transCatInt, [.setTransf transCatInt, .invTransf])
  else (h, transNormalize, [])

/-- Maximin loop body (source lines 109-122). The retained score maxdist
starts at 0 and a candidate replaces the best exactly when maxdist > min(d). -/
def maximinStep (self : Lhs) (space : SpaceDesc) (nSamples : ℕ)
    (st : LoopSt) : LoopRes :=
  match candidatePrep uVal permOf invT trT self space nSamples st with
  | .error e => .error e
  | .ok (h, st1) =>
    let evs := st1.evs ++ [.pdistCall]
    match npMin (pdistE h) with
    | .error e => .error (e, st1.trans, evs)
    | .ok dmin =>
      if st1.bestScore > (dmin : WithTop ℚ) then
        let hs := hOptStore invT space h
        .ok ⟨hs.1, (dmin : WithTop ℚ), st1.rstate, hs.2.1, evs ++ hs.2.2⟩
      else
        .ok ⟨st1.hOpt, st1.bestScore, st1.rstate, st1.trans, evs⟩

/-- Correlation loop body (source lines 90-104). The candidate is tested with
np.max(np.abs(r[r != 1])) < mincorr, and on replacement mincorr is set to
np.max(np.abs(r - eye)). -/
def corrStep (self : Lhs) (space : SpaceDesc) (nSamples : ℕ)
    (st : LoopSt) : LoopRes :=
  match candidatePrep uVal permOf invT trT self space nSamples st with
  | .error e => .error e
  | .ok (h, st1) =>
    let r := corrcoefE h
    let evs := st1.evs ++ [.corrcoefCall]
    match maskedAbsMax r with
    | .error e => .error (e, st1.trans, evs)
    | .ok tval =>
      if (tval : WithTop ℚ) < st1.bestScore then
        match corrStoredScore r with
        | .error e => .error (e, st1.trans, evs)
        | .ok sval =>
          let hs := hOptStore invT space h
          .ok ⟨hs.1, (sval : WithTop ℚ), st1.rstate, hs.2.1, evs ++ hs.2.2⟩
      else
        .ok ⟨st1.hOpt, st1.bestScore, st1.rstate, st1.trans, evs⟩

/-- Ratio loop body (source lines 127-141). The candidate score is
max(p)/min(p) and a candidate replaces the best exactly when
minratio < that score, minratio starting at np.inf. -/
def ratioStep (self : Lhs) (space : SpaceDesc) (nSamples : ℕ)
    (st : LoopSt) : LoopRes :=
  match candidatePrep uVal permOf invT trT self space nSamples st with
  | .error e => .error e
  | .ok (h, st1) =>
    let p := pdistE h
    let evs := st1.evs ++ [.pdistCall]
    match npMax p with
    | .error e => .error (e, st1.trans, evs)
    | .ok pmax =>
      match npMin p with
      | .error e => .error (e, st1.trans, evs)
      | .ok pmin =>
        let rat := pmax / pmin
        if st1.bestScore < (rat : WithTop ℚ) then
          let hs := hOptStore invT space h
          .ok ⟨hs.1, (rat : WithTop ℚ), st1.rstate, hs.2.1, evs ++ hs.2.2⟩
        else
          .ok ⟨st1.hOpt, st1.bestScore, st1.rstate, st1.trans, evs⟩

/-- Source Lhs.generate (lines 40-146) over the external space description.
The unused rng = check_random_state(random_state) at line 68 is dropped.
Returns the result, the transformer mode left on the space at return, and
the event trace. -/
def Lhs.generate (self : Lhs) (space : SpaceDesc) (nSamples : ℕ)
    (randomState : RState) : Except String Mat × String × List Ev :=
  let transformer := space.initTransformer
  let evs0 :=
    (if space.isPartlyCategorical then
      [Ev.setTransf "identity", Ev.setTransf transCatInt]
     else []) ++ [Ev.setTransf transNormalize]
  let res := self.lhs_normalized uVal permOf space.nDims nSamples randomState
  if self.criterion = none ∨ nSamples = 1 then
    match res.1 with
    | .error e => (.error e, transNormalize, evs0 ++ res.2.2)
    | .ok hm =>
      (.ok (invT transNormalize hm), transformer,
        evs0 ++ res.2.2 ++ [.invTransf, .setTransf transformer])
  else
    match res.1 with
    | .error e => (.error e, transNormalize, evs0 ++ res.2.2)
    | .ok hm =>
      let hOpt0 := invT transNormalize hm
      let evs1 := evs0 ++ res.2.2 ++ [Ev.setTransf transNormalize, Ev.invTransf]
      if self.criterion = some "correlation" then
        finalizeLoop transformer
          (runLoop (corrStep uVal permOf invT trT corrcoefE self space nSamples)
            self.iterations ⟨hOpt0, ⊤, res.2.1, transNormalize, evs1⟩)
      else if self.criterion = some "maximin" then
        finalizeLoop transformer
          (runLoop (maximinStep uVal permOf invT trT pdistE self space nSamples)
            self.iterations ⟨hOpt0, ((0 : ℚ) : WithTop ℚ), res.2.1, transNormalize, evs1⟩)
      else if self.criterion = some "ratio" then
        finalizeLoop transformer
          (runLoop (ratioStep uVal permOf invT trT pdistE self space nSamples)
            self.iterations ⟨hOpt0, ⊤, res.2.1, transNormalize, evs1⟩)
      else
        (.error ("Wrong criterion.Got " ++ (self.criterion.getD "")),
          transNormalize, evs1)

end Model

/-- Membership of a value in stratum k among n equal-width half-open
intervals partitioning the unit interval. -/
abbrev inStratum (n : ℕ) (v : ℚ) (k : ℕ) : Prop :=
  (k : ℚ) / n ≤ v ∧ v < ((k : ℚ) + 1) / n

/-- Whether an event is a uniform-draw event. -/
def isRandEv : Ev → Bool
  | .rand _ => true
  | _ => false

/-- Number of uniform-draw events in a trace. -/
def countRand (l : List Ev) : ℕ := (l.filter isRandEv).length

/-- The five stratum midpoints for nSamples = 5. -/
def mids5 : List ℚ := [1/10, 3/10, 1/2, 7/10, 9/10]

/-- Concrete uniform stream: every draw is one half. -/
def uHalf : ℕ → ℕ → ℚ := fun _ _ => 1/2

/-- Concrete permutation source: identity permutation on every column. -/
def permId : ℕ → ℕ → ℕ → ℕ → ℕ := fun _ _ _ i => i

/-- Concrete permutation source: order reversal on two rows. -/
def permRev2 : ℕ → ℕ → ℕ → ℕ → ℕ := fun _ _ _ i => 1 - i

/-- Concrete space transform: identity in every mode. -/
def idTransf : String → Mat → Mat := fun _ m => m

/-- Concrete distance primitive: one pair at distance 1. -/
def pdOne : Mat → List ℚ := fun _ => [1]

/-- Concrete distance primitive: distances 1 and 2, so max/min = 2. -/
def pdOneTwo : Mat → List ℚ := fun _ => [1, 2]

/-- Concrete correlation primitive: the 2 by 2 identity matrix. -/
def corrId : Mat → Mat := fun _ => [[1, 0], [0, 1]]

/-- A correlation matrix with an off-diagonal coefficient exactly equal
to 1 (first two columns perfectly correlated) next to coefficients 1/2. -/
def rDegenerate : Mat := [[1, 1, 1/2], [1, 1, 1/2], [1/2, 1/2, 1]]

/-- An unknown lhs_type makes _lhs_normalized raise, after the uniform draw
(the rand event is in the trace and the generator has advanced). -/
theorem lhs_normalized_badtype (uVal : ℕ → ℕ → ℚ) (permOf : ℕ → ℕ → ℕ → ℕ → ℕ)
    (self : Lhs) (nDim nSamples : ℕ) (rs : RState)
    (h1 : self.lhs_type ≠ "classic") (h2 : self.lhs_type ≠ "centered") :
    self.lhs_normalized uVal permOf nDim nSamples rs
      = (.error "Wrong lhs_type. Got ", advanceR rs (nSamples * nDim),
         [.rand (nSamples * nDim)]) := by
  simp [Lhs.lhs_normalized, lhsRaw, h1, h2]

/-- A valid lhs_type makes _lhs_normalized succeed, with one uniform draw
and one column permutation in its trace. -/
theorem lhs_normalized_ok (uVal : ℕ → ℕ → ℚ) (permOf : ℕ → ℕ → ℕ → ℕ → ℕ)
    (self : Lhs) (nDim nSamples : ℕ) (rs : RState)
    (hlt : self.lhs_type = "classic" ∨ self.lhs_type = "centered") :
    (∃ hm, (self.lhs_normalized uVal permOf nDim nSamples rs).1 = .ok hm)
    ∧ (self.lhs_normalized uVal permOf nDim nSamples rs).2.2
        = [.rand (nSamples * nDim), .permuteCols] := by
  rcases hlt with h | h <;>
    simp [Lhs.lhs_normalized, lhsRaw, h, random_permute_matrix]

/-- The _lhs_normalized trace is one uniform draw, followed by the column
permutation when the lhs_type check passes. -/
theorem lhs_normalized_snd (uVal : ℕ → ℕ → ℚ) (permOf : ℕ → ℕ → ℕ → ℕ → ℕ)
    (self : Lhs) (nDim nSamples : ℕ) (rs : RState) :
    (self.lhs_normalized uVal permOf nDim nSamples rs).2.2
        = [.rand (nSamples * nDim)]
    ∨ (self.lhs_normalized uVal permOf nDim nSamples rs).2.2
        = [.rand (nSamples * nDim), .permuteCols] := by
  rcases hr : lhsRaw self.lhs_type (uFrom uVal rs nDim) nDim nSamples with e | m <;>
    simp [Lhs.lhs_normalized, random_permute_matrix, hr]

/-- The iterations field plays no role in _lhs_normalized. -/
theorem lhs_normalized_iterations_irrelevant (uVal : ℕ → ℕ → ℚ)
    (permOf : ℕ → ℕ → ℕ → ℕ → ℕ) (self : Lhs) (m nDim nSamples : ℕ)
    (rs : RState) :
    Lhs.lhs_normalized uVal permOf ⟨self.lhs_type, self.criterion, m⟩
        nDim nSamples rs
      = Lhs.lhs_normalized uVal permOf self nDim nSamples rs := rfl

/-- With an int seed, the generator state _lhs_normalized hands back is the
same immutable int seed. -/
theorem lhs_normalized_intSeed_rstate (uVal : ℕ → ℕ → ℚ)
    (permOf : ℕ → ℕ → ℕ → ℕ → ℕ) (self : Lhs) (nDim nSamples s : ℕ) :
    (self.lhs_normalized uVal permOf nDim nSamples (.intSeed s)).2.1
      = .intSeed s := by
  rcases hr : lhsRaw self.lhs_type (uFrom uVal (.intSeed s) nDim) nDim nSamples
      with e | m <;>
    simp [Lhs.lhs_normalized, random_permute_matrix, hr, advanceR]

section ModelLemmas

variable (uVal : ℕ → ℕ → ℚ) (permOf : ℕ → ℕ → ℕ → ℕ → ℕ)
variable (invT trT : String → Mat → Mat)
variable (pdistE : Mat → List ℚ) (corrcoefE : Mat → Mat)

/-- With an unknown lhs_type, generate raises on either path, leaving the
transformer at "normalize", with only the uniform draw in the trace. -/
theorem generate_badtype (self : Lhs) (space : SpaceDesc) (nSamples : ℕ)
    (rs : RState)
    (h1 : self.lhs_type ≠ "classic") (h2 : self.lhs_type ≠ "centered") :
    Lhs.generate uVal permOf invT trT pdistE corrcoefE self space nSamples rs
      = (.error "Wrong lhs_type. Got ", transNormalize,
         ((if space.isPartlyCategorical then
             [Ev.setTransf "identity", Ev.setTransf transCatInt] else [])
           ++ [Ev.setTransf transNormalize])
           ++ [.rand (nSamples * space.nDims)]) := by
  have hN := lhs_normalized_badtype uVal permOf self space.nDims nSamples rs h1 h2
  by_cases hcond : self.criterion = none ∨ nSamples = 1 <;>
    simp [Lhs.generate, hcond, hN]

/-- With a valid lhs_type, an unknown criterion (and n_samples ≠ 1) raises
after exactly the iteration-0 sampling and inverse transform, leaving the
transformer at "normalize". -/
theorem generate_bogus_criterion (self : Lhs) (space : SpaceDesc)
    (nSamples : ℕ) (rs : RState) (c : String)
    (hlt : self.lhs_type = "classic" ∨ self.lhs_type = "centered")
    (hc : self.criterion = some c)
    (hc1 : c ≠ "correlation") (hc2 : c ≠ "maximin") (hc3 : c ≠ "ratio")
    (hn : nSamples ≠ 1) :
    Lhs.generate uVal permOf invT trT pdistE corrcoefE self space nSamples rs
      = (.error ("Wrong criterion.Got " ++ c), transNormalize,
         ((if space.isPartlyCategorical then
             [Ev.setTransf "identity", Ev.setTransf transCatInt] else [])
           ++ [Ev.setTransf transNormalize])
           ++ ([.rand (nSamples * space.nDims), .permuteCols]
           ++ [Ev.setTransf transNormalize, Ev.invTransf])) := by
  obtain ⟨⟨hm, hok⟩, htr⟩ :=
    lhs_normalized_ok uVal permOf self space.nDims nSamples rs hlt
  simp [Lhs.generate, hok, htr, hc, hc1, hc2, hc3, hn]

end ModelLemmas

/-- On an ok loop outcome, finalizeLoop reports the transformer it was asked
to restore. -/
theorem finalizeLoop_ok_trans (t : String) (L : LoopRes) (out : Mat)
    (h : (finalizeLoop t L).1 = .ok out) : (finalizeLoop t L).2.1 = t := by
  cases L with
  | error e => obtain ⟨e1, e2, e3⟩ := e; simp [finalizeLoop] at h
  | ok st => simp [finalizeLoop]

section ModelLemmasB

variable (uVal : ℕ → ℕ → ℚ) (permOf : ℕ → ℕ → ℕ → ℕ → ℕ)
variable (invT trT : String → Mat → Mat)
variable (pdistE : Mat → List ℚ) (corrcoefE : Mat → Mat)

/-- On every ok return of generate, the entry transformer has been
restored. -/
theorem generate_ok_trans (self : Lhs) (space : SpaceDesc) (nSamples : ℕ)
    (rs : RState) (out : Mat)
    (hok : (Lhs.generate uVal permOf invT trT pdistE corrcoefE
        self space nSamples rs).1 = .ok out) :
    (Lhs.generate uVal permOf invT trT pdistE corrcoefE
        self space nSamples rs).2.1 = space.initTransformer := by
  by_cases hcond : self.criterion = none ∨ nSamples = 1
  · cases hN : (self.lhs_normalized uVal permOf space.nDims nSamples rs).1 with
    | error e => simp [Lhs.generate, hcond, hN] at hok
    | ok hm => simp [Lhs.generate, hcond, hN]
  · cases hN : (self.lhs_normalized uVal permOf space.nDims nSamples rs).1 with
    | error e => simp [Lhs.generate, hcond, hN] at hok
    | ok hm =>
      simp only [Lhs.generate, hN] at hok ⊢
      rw [if_neg hcond] at hok ⊢
      by_cases h1 : self.criterion = some "correlation"
      · rw [if_pos h1] at hok ⊢
        exact finalizeLoop_ok_trans _ _ out hok
      · rw [if_neg h1] at hok ⊢
        by_cases h2 : self.criterion = some "maximin"
        · rw [if_pos h2] at hok ⊢
          exact finalizeLoop_ok_trans _ _ out hok
        · rw [if_neg h2] at hok ⊢
          by_cases h3 : self.criterion = some "ratio"
          · rw [if_pos h3] at hok ⊢
            exact finalizeLoop_ok_trans _ _ out hok
          · rw [if_neg h3] at hok
            simp at hok

end ModelLemmasB

/-- Errors are absorbing for the guarded loop step. -/
theorem iterate_stepE_error (f : LoopSt → LoopRes) (n : ℕ)
    (e : String × String × List Ev) :
    (stepE f)^[n] (.error e) = .error e := by
  induction n with
  | zero => rfl
  | succ n ih =>
    rw [Function.iterate_succ_apply]
    exact ih

/-- An invariant preserved by the loop body holds after any number of
iterations, unless the loop aborted with an error. -/
theorem iterate_stepE_inv (f : LoopSt → LoopRes) (P : LoopSt → Prop)
    (hf : ∀ st, P st → (∃ e, f st = .error e) ∨ ∃ st', f st = .ok st' ∧ P st')
    (n : ℕ) :
    ∀ st0, P st0 →
      (∃ e, (stepE f)^[n] (.ok st0) = .error e) ∨
      ∃ st, (stepE f)^[n] (.ok st0) = .ok st ∧ P st := by
  induction n with
  | zero => exact fun st0 h0 => Or.inr ⟨st0, rfl, h0⟩
  | succ n ih =>
    intro st0 h0
    rw [Function.iterate_succ_apply]
    have hs : stepE f (.ok st0) = f st0 := rfl
    rw [hs]
    rcases hf st0 h0 with ⟨e, he⟩ | ⟨st', hst', hP⟩
    · rw [he]
      exact Or.inl ⟨e, iterate_stepE_error f n e⟩
    · rw [hst']
      exact ih st' hP

/-- An ok result of finalizeLoop comes from an ok loop outcome whose
retained candidate is the returned layout. -/
theorem finalizeLoop_ok_out (t : String) (L : LoopRes) (out : Mat)
    (h : (finalizeLoop t L).1 = .ok out) : ∃ st, L = .ok st ∧ st.hOpt = out := by
  cases L with
  | error e =>
    obtain ⟨e1, e2, e3⟩ := e
    simp [finalizeLoop] at h
  | ok st =>
    refine ⟨st, rfl, ?_⟩
    simpa [finalizeLoop] using h

/-- Combining the two: an ok generate result that went through the loop
satisfies any invariant of the loop body. -/
theorem runLoop_inv_out (f : LoopSt → LoopRes) (P : LoopSt → Prop)
    (hf : ∀ st, P st → (∃ e, f st = .error e) ∨ ∃ st', f st = .ok st' ∧ P st')
    (iters : ℕ) (st0 : LoopSt) (h0 : P st0) (t : String) (out : Mat)
    (hok : (finalizeLoop t (runLoop f iters st0)).1 = .ok out) :
    ∃ st, P st ∧ st.hOpt = out := by
  obtain ⟨st, hL, hout⟩ := finalizeLoop_ok_out t _ out hok
  rw [runLoop] at hL
  rcases iterate_stepE_inv f P hf iters st0 h0 with ⟨e, he⟩ | ⟨st', hst', hP'⟩
  · rw [he] at hL
    cases hL
  · rw [hst'] at hL
    injection hL with h
    subst h
    exact ⟨_, hP', hout⟩

section IntSeedLemmas

variable (uVal : ℕ → ℕ → ℚ) (permOf : ℕ → ℕ → ℕ → ℕ → ℕ)
variable (invT trT : String → Mat → Mat)
variable (pdistE : Mat → List ℚ) (corrcoefE : Mat → Mat)

/-- With an int seed, every candidate preparation inside the loop re-creates
the same unit layout: the prepared scoring layout is a fixed function of the
seed, and the loop state keeps the immutable int seed. -/
theorem candidatePrep_intSeed (self : Lhs) (space : SpaceDesc)
    (nSamples s : ℕ) (hm : Mat)
    (hN : (self.lhs_normalized uVal permOf space.nDims nSamples
        (.intSeed s)).1 = .ok hm)
    (st : LoopSt) (hr : st.rstate = .intSeed s) :
    ∃ st1, candidatePrep uVal permOf invT trT self space nSamples st
        = .ok ((if space.isPartlyCategorical then
              trT transCatInt (invT transNormalize hm)
            else invT transNormalize hm), st1)
      ∧ st1.hOpt = st.hOpt ∧ st1.bestScore = st.bestScore
      ∧ st1.rstate = .intSeed s := by
  have hr2 := lhs_normalized_intSeed_rstate uVal permOf self space.nDims
    nSamples s
  cases hcat : space.isPartlyCategorical
  · refine ⟨⟨st.hOpt, st.bestScore, .intSeed s, transNormalize,
      st.evs ++ (self.lhs_normalized uVal permOf space.nDims nSamples
        (.intSeed s)).2.2 ++ [.setTransf transNormalize, .invTransf]⟩,
      ?_, rfl, rfl, rfl⟩
    simp [candidatePrep, hr, hN, hr2, hcat]
  · refine ⟨⟨st.hOpt, st.bestScore, .intSeed s, transCatInt,
      st.evs ++ (self.lhs_normalized uVal permOf space.nDims nSamples
        (.intSeed s)).2.2 ++ [.setTransf transNormalize, .invTransf]
        ++ [.setTransf transCatInt, .transf]⟩,
      ?_, rfl, rfl, rfl⟩
    simp [candidatePrep, hr, hN, hr2, hcat]

/-- The maximin loop body preserves, under an int seed, both the retained
candidate and the seed (whether or not it replaces the best). -/
theorem maximinStep_intSeed_inv (self : Lhs) (space : SpaceDesc)
    (nSamples s : ℕ) (hm : Mat)
    (hN : (self.lhs_normalized uVal permOf space.nDims nSamples
        (.intSeed s)).1 = .ok hm)
    (hroundtrip : ∀ mm, invT transCatInt (trT transCatInt mm) = mm) :
    ∀ st, (st.hOpt = invT transNormalize hm ∧ st.rstate = .intSeed s) →
      (∃ e, maximinStep uVal permOf invT trT pdistE self space nSamples st
          = .error e)
      ∨ ∃ st2, maximinStep uVal permOf invT trT pdistE self space nSamples st
          = .ok st2
        ∧ st2.hOpt = invT transNormalize hm ∧ st2.rstate = .intSeed s := by
  intro st hP
  obtain ⟨st1, hcp, h1, h2, h3⟩ := candidatePrep_intSeed uVal permOf invT trT
    self space nSamples s hm hN st hP.2
  cases hres : maximinStep uVal permOf invT trT pdistE self space nSamples st
    with
  | error e => exact Or.inl ⟨e, rfl⟩
  | ok st2 =>
    refine Or.inr ⟨st2, rfl, ?_⟩
    simp only [maximinStep, hcp] at hres
    split at hres
    · cases hres
    · split at hres
      · injection hres with h4
        subst h4
        constructor
        · cases hcat : space.isPartlyCategorical <;>
            simp [hOptStore, hcat, hroundtrip]
        · exact h3
      · injection hres with h4
        subst h4
        exact ⟨h1.trans hP.1, h3⟩

/-- The ratio loop body preserves, under an int seed, both the retained
candidate and the seed. -/
theorem ratioStep_intSeed_inv (self : Lhs) (space : SpaceDesc)
    (nSamples s : ℕ) (hm : Mat)
    (hN : (self.lhs_normalized uVal permOf space.nDims nSamples
        (.intSeed s)).1 = .ok hm)
    (hroundtrip : ∀ mm, invT transCatInt (trT transCatInt mm) = mm) :
    ∀ st, (st.hOpt = invT transNormalize hm ∧ st.rstate = .intSeed s) →
      (∃ e, ratioStep uVal permOf invT trT pdistE self space nSamples st
          = .error e)
      ∨ ∃ st2, ratioStep uVal permOf invT trT pdistE self space nSamples st
          = .ok st2
        ∧ st2.hOpt = invT transNormalize hm ∧ st2.rstate = .intSeed s := by
  intro st hP
  obtain ⟨st1, hcp, h1, h2, h3⟩ := candidatePrep_intSeed uVal permOf invT trT
    self space nSamples s hm hN st hP.2
  cases hres : ratioStep uVal permOf invT trT pdistE self space nSamples st
    with
  | error e => exact Or.inl ⟨e, rfl⟩
  | ok st2 =>
    refine Or.inr ⟨st2, rfl, ?_⟩
    simp only [ratioStep, hcp] at hres
    split at hres
    · cases hres
    · split at hres
      · cases hres
      · split at hres
        · injection hres with h4
          subst h4
          constructor
          · cases hcat : space.isPartlyCategorical <;>
              simp [hOptStore, hcat, hroundtrip]
          · exact h3
        · injection hres with h4
          subst h4
          exact ⟨h1.trans hP.1, h3⟩

/-- The correlation loop body preserves, under an int seed, both the
retained candidate and the seed: a replacement copies a candidate built from
the same seed-determined layout. -/
theorem corrStep_intSeed_inv (self : Lhs) (space : SpaceDesc)
    (nSamples s : ℕ) (hm : Mat)
    (hN : (self.lhs_normalized uVal permOf space.nDims nSamples
        (.intSeed s)).1 = .ok hm)
    (hroundtrip : ∀ mm, invT transCatInt (trT transCatInt mm) = mm) :
    ∀ st, (st.hOpt = invT transNormalize hm ∧ st.rstate = .intSeed s) →
      (∃ e, corrStep uVal permOf invT trT corrcoefE self space nSamples st
          = .error e)
      ∨ ∃ st2, corrStep uVal permOf invT trT corrcoefE self space nSamples st
          = .ok st2
        ∧ st2.hOpt = invT transNormalize hm ∧ st2.rstate = .intSeed s := by
  intro st hP
  obtain ⟨st1, hcp, h1, h2, h3⟩ := candidatePrep_intSeed uVal permOf invT trT
    self space nSamples s hm hN st hP.2
  cases hres : corrStep uVal permOf invT trT corrcoefE self space nSamples st
    with
  | error e => exact Or.inl ⟨e, rfl⟩
  | ok st2 =>
    refine Or.inr ⟨st2, rfl, ?_⟩
    simp only [corrStep, hcp] at hres
    split at hres
    · cases hres
    · split at hres
      · split at hres
        · cases hres
        · injection hres with h4
          subst h4
          constructor
          · cases hcat : space.isPartlyCategorical <;>
              simp [hOptStore, hcat, hroundtrip]
          · exact h3
      · injection hres with h4
        subst h4
        exact ⟨h1.trans hP.1, h3⟩

end IntSeedLemmas

/-- C1: the code of the maximin loop body does not replace the best candidate
when the fresh candidate's minimum pairwise distance strictly exceeds the
current best score. Concretely, with the stored score at its initial value 0
and a fresh candidate whose distance vector is [1] (so its minimum pairwise
distance 1 is strictly greater than 0), maximinStep keeps the old candidate
and the old score unchanged, because the source tests maxdist > min(d). -/
theorem c1_maximin_no_replacement :
    npMin [(1 : ℚ)] = .ok 1 ∧ ((0 : ℚ) : WithTop ℚ) < ((1 : ℚ) : WithTop ℚ)
    ∧ (maximinStep uHalf permId idTransf idTransf pdOne
          ⟨"classic", some "maximin", 1⟩ ⟨1, false, "onehot"⟩ 2
          ⟨[[0]], ((0 : ℚ) : WithTop ℚ), .intSeed 7, "normalize", []⟩).toOption.map
        (fun s => (s.hOpt, s.bestScore)) = some ([[0]], ((0 : ℚ) : WithTop ℚ)) := by
  decide

/-- C2: the code of the ratio loop body does not replace the best candidate
when the fresh candidate's max/min distance ratio is strictly lower than the
current best score. Concretely, with the stored score at its initial value
np.inf and a fresh candidate whose distance vector is [1, 2] (ratio 2, which
is strictly lower than np.inf), ratioStep keeps the old candidate and the
old score unchanged, because the source tests minratio < ratio. -/
theorem c2_ratio_no_replacement :
    npMax [(1 : ℚ), 2] = .ok 2 ∧ npMin [(1 : ℚ), 2] = .ok 1
    ∧ ((2 : ℚ) : WithTop ℚ) < (⊤ : WithTop ℚ)
    ∧ (ratioStep uHalf permId idTransf idTransf pdOneTwo
          ⟨"classic", some "ratio", 1⟩ ⟨1, false, "onehot"⟩ 2
          ⟨[[0]], (⊤ : WithTop ℚ), .intSeed 7, "normalize", []⟩).toOption.map
        (fun s => (s.hOpt, s.bestScore)) = some ([[0]], (⊤ : WithTop ℚ)) := by
  decide

/-- C4 counterexample: with the unknown criterion "bogus" (and n_samples = 2),
generate does raise the configuration error, but only after one candidate has
been sampled (a rand draw and a column permutation appear in the trace) and
transformed to the domain representation (an inverse-transform event appears
in the trace): partial computation does occur before the error. -/
theorem c4_counterexample :
    (Lhs.generate uHalf permId idTransf idTransf pdOne corrId
        ⟨"classic", some "bogus", 5⟩ ⟨1, false, "onehot"⟩ 2 (.intSeed 0)).1
      = .error "Wrong criterion.Got bogus"
    ∧ Ev.rand 2 ∈ (Lhs.generate uHalf permId idTransf idTransf pdOne corrId
        ⟨"classic", some "bogus", 5⟩ ⟨1, false, "onehot"⟩ 2 (.intSeed 0)).2.2
    ∧ Ev.permuteCols ∈ (Lhs.generate uHalf permId idTransf idTransf pdOne corrId
        ⟨"classic", some "bogus", 5⟩ ⟨1, false, "onehot"⟩ 2 (.intSeed 0)).2.2
    ∧ Ev.invTransf ∈ (Lhs.generate uHalf permId idTransf idTransf pdOne corrId
        ⟨"classic", some "bogus", 5⟩ ⟨1, false, "onehot"⟩ 2 (.intSeed 0)).2.2 := by
  decide

/-- C5 counterexample: constructing an Lhs with lhs_type "bogus" (or with
criterion "bogus") raises nothing at construction time, and the unknown
lhs_type error is raised inside _lhs_normalized only after the uniform
random matrix has been drawn (the rand event precedes the error). -/
theorem c5_counterexample :
    lhsInit "bogus" (some "bogus") 1000 = .ok ⟨"bogus", some "bogus", 1000⟩
    ∧ (Lhs.lhs_normalized uHalf permId ⟨"bogus", some "bogus", 1000⟩ 1 2
        (.intSeed 0)).1 = .error "Wrong lhs_type. Got "
    ∧ Ev.rand 2 ∈ (Lhs.lhs_normalized uHalf permId ⟨"bogus", some "bogus", 1000⟩ 1 2
        (.intSeed 0)).2.2 := by
  decide

/-- C6 counterexample: on the unknown-criterion error path, generate returns
with the space's transformer left at "normalize" although it was "onehot" on
entry: the entry mapping mode is not restored on this exit path. -/
theorem c6_counterexample :
    (Lhs.generate uHalf permId idTransf idTransf pdOne corrId
        ⟨"classic", some "bogus", 5⟩ ⟨1, false, "onehot"⟩ 2 (.intSeed 0)).2.1
      = "normalize"
    ∧ (⟨1, false, "onehot"⟩ : SpaceDesc).initTransformer = "onehot"
    ∧ ("normalize" : String) ≠ "onehot"
    ∧ (Lhs.generate uHalf permId idTransf idTransf pdOne corrId
        ⟨"classic", some "bogus", 5⟩ ⟨1, false, "onehot"⟩ 2 (.intSeed 0)).1
      = .error "Wrong criterion.Got bogus" := by
  decide

/-- C10 counterexample: on a correlation matrix with an off-diagonal
coefficient exactly equal to 1, the score the correlation branch tests
against the running best (np.max(np.abs(r[r != 1])), here 1/2) differs from
the maximum absolute off-diagonal coefficient (here 1): with the running
best at 3/4 the claim predicts no replacement (1 < 3/4 is false), yet
corrStep replaces the best candidate and stores score 1. -/
theorem c10_counterexample :
    maskedAbsMax rDegenerate = .ok (1/2)
    ∧ maxAbsOffDiag rDegenerate = .ok 1
    ∧ corrStoredScore rDegenerate = .ok 1
    ∧ ¬ ((1 : ℚ) : WithTop ℚ) < ((3/4 : ℚ) : WithTop ℚ)
    ∧ (corrStep uHalf permId idTransf idTransf (fun _ => rDegenerate)
          ⟨"classic", some "correlation", 1⟩ ⟨1, false, "onehot"⟩ 2
          ⟨[[0]], ((3/4 : ℚ) : WithTop ℚ), .intSeed 7, "normalize", []⟩).toOption.map
        (fun s => (s.hOpt, s.bestScore))
      = some ([[1/4], [3/4]], ((1 : ℚ) : WithTop ℚ)) := by
  decide

/-- Indexing a map over a range. -/
theorem getD_map_range {α : Type} (f : ℕ → α) (n i : ℕ) (d : α) (hi : i < n) :
    ((List.range n).map f).getD i d = f i := by
  simp [List.getD_eq_getElem?_getD, List.getElem?_range, hi]

/-- The centered pre-permutation matrix, written out. -/
theorem lhsRaw_centered_eq (u : ℕ → ℕ → ℚ) (nDim nSamples : ℕ) :
    lhsRaw "centered" u nDim nSamples
      = .ok ((List.range nSamples).map fun (i : ℕ) =>
          (List.range nDim).map fun _ =>
            1 / (2 * (nSamples : ℚ)) + (i : ℚ) / (nSamples : ℚ)) := rfl

/-- The classic pre-permutation matrix, written out. -/
theorem lhsRaw_classic_eq (u : ℕ → ℕ → ℚ) (nDim nSamples : ℕ) :
    lhsRaw "classic" u nDim nSamples
      = .ok ((List.range nSamples).map fun (i : ℕ) =>
          (List.range nDim).map fun j =>
            u i j * (1 / (nSamples : ℚ)) + (i : ℚ) / (nSamples : ℚ)) := rfl

/-- Stratum membership, multiplied through by the stratum count. -/
theorem inStratum_iff_mul (n k : ℕ) (v : ℚ) (hn : 0 < n) :
    inStratum n v k ↔ ((k : ℚ) ≤ v * n ∧ v * n < (k : ℚ) + 1) := by
  have hpos : (0 : ℚ) < n := by exact_mod_cast hn
  unfold inStratum
  rw [div_le_iff₀ hpos, lt_div_iff₀ hpos]

/-- The strata are pairwise disjoint: a value lies in at most one. -/
theorem inStratum_unique (n k k2 : ℕ) (v : ℚ) (hn : 0 < n)
    (h1 : inStratum n v k) (h2 : inStratum n v k2) : k = k2 := by
  rw [inStratum_iff_mul n k v hn] at h1
  rw [inStratum_iff_mul n k2 v hn] at h2
  have a1 : (k : ℚ) < (k2 : ℚ) + 1 := lt_of_le_of_lt h1.1 h2.2
  have a2 : (k2 : ℚ) < (k : ℚ) + 1 := lt_of_le_of_lt h2.1 h1.2
  have b1 : k < k2 + 1 := by exact_mod_cast a1
  have b2 : k2 < k + 1 := by exact_mod_cast a2
  omega

/-- Every pre-permutation entry of row i lies in stratum i of its column:
the stratification invariant before the permutation. -/
theorem entry_raw_mem (lt : String) (u : ℕ → ℕ → ℚ) (nDim nSamples : ℕ)
    (hmode : lt = "classic" ∨ lt = "centered") (hn : 0 < nSamples)
    (hu : ∀ i j, i < nSamples → j < nDim → 0 ≤ u i j ∧ u i j < 1)
    (h : Mat) (hR : lhsRaw lt u nDim nSamples = .ok h)
    (i j : ℕ) (hi : i < nSamples) (hj : j < nDim) :
    inStratum nSamples (entry h i j) i := by
  have hpos : (0 : ℚ) < nSamples := by exact_mod_cast hn
  have hne : (nSamples : ℚ) ≠ 0 := ne_of_gt hpos
  rw [inStratum_iff_mul _ _ _ hn]
  rcases hmode with hc | hc <;> subst hc
  · rw [lhsRaw_classic_eq] at hR
    injection hR with hR
    subst hR
    simp only [entry]
    rw [getD_map_range _ _ _ _ hi, getD_map_range _ _ _ _ hj]
    obtain ⟨hu0, hu1⟩ := hu i j hi hj
    have hmul : (u i j * (1 / (nSamples : ℚ)) + (i : ℚ) / nSamples) * nSamples
        = u i j + i := by field_simp
    rw [hmul]
    constructor
    · linarith
    · linarith
  · rw [lhsRaw_centered_eq] at hR
    injection hR with hR
    subst hR
    simp only [entry]
    rw [getD_map_range _ _ _ _ hi, getD_map_range _ _ _ _ hj]
    have hmul : (1 / (2 * (nSamples : ℚ)) + (i : ℚ) / nSamples) * nSamples
        = 1 / 2 + i := by field_simp; ring
    rw [hmul]
    constructor
    · linarith
    · linarith

/-- Shape of the pre-permutation matrix. -/
theorem lhsRaw_shape (lt : String) (u : ℕ → ℕ → ℚ) (nDim nSamples : ℕ)
    (hmode : lt = "classic" ∨ lt = "centered") (hn : 0 < nSamples)
    (h : Mat) (hR : lhsRaw lt u nDim nSamples = .ok h) :
    h.length = nSamples ∧ (h.headD []).length = nDim := by
  rcases hmode with hc | hc <;> subst hc
  · rw [lhsRaw_classic_eq] at hR
    injection hR with hR
    subst hR
    cases nSamples with
    | zero => exact absurd hn (lt_irrefl 0)
    | succ k =>
      refine ⟨by simp, ?_⟩
      simp [List.range_succ_eq_map]
  · rw [lhsRaw_centered_eq] at hR
    injection hR with hR
    subst hR
    cases nSamples with
    | zero => exact absurd hn (lt_irrefl 0)
    | succ k =>
      refine ⟨by simp, ?_⟩
      simp [List.range_succ_eq_map]

/-- The permuted matrix reads its entries off the pre-permutation matrix
through the per-column row reindexing drawn from the seeded source. -/
theorem lhs_normalized_entry (uVal : ℕ → ℕ → ℚ) (permOf : ℕ → ℕ → ℕ → ℕ → ℕ)
    (self : Lhs) (nDim nSamples : ℕ) (rs : RState) (h : Mat)
    (hR : lhsRaw self.lhs_type (uFrom uVal rs nDim) nDim nSamples = .ok h)
    (hlen : h.length = nSamples) (hhead : (h.headD []).length = nDim)
    (m : Mat)
    (hM : (self.lhs_normalized uVal permOf nDim nSamples rs).1 = .ok m)
    (i j : ℕ) (hi : i < nSamples) (hj : j < nDim) :
    entry m i j
      = entry h (permOf (checkRandomState (advanceR rs (nSamples * nDim))).1
          (checkRandomState (advanceR rs (nSamples * nDim))).2 j i) j := by
  have hM2 : m = (List.range h.length).map fun i2 =>
      (List.range (h.headD []).length).map fun j2 =>
        entry h (permOf (checkRandomState (advanceR rs (nSamples * nDim))).1
          (checkRandomState (advanceR rs (nSamples * nDim))).2 j2 i2) j2 := by
    simp only [Lhs.lhs_normalized, hR, random_permute_matrix] at hM
    injection hM with hM
    exact hM.symm
  subst hM2
  simp only [entry]
  rw [getD_map_range _ _ _ _ (hlen.symm ▸ hi),
    getD_map_range _ _ _ _ (hhead.symm ▸ hj)]

/-- A bounded injective self-map of an initial segment of the naturals is
surjective on it. -/
theorem surj_of_inj_on_range (f : ℕ → ℕ) (n : ℕ)
    (hb : ∀ i, i < n → f i < n)
    (hi : ∀ i i2, i < n → i2 < n → f i = f i2 → i = i2) :
    ∀ k, k < n → ∃ i, i < n ∧ f i = k := by
  intro k hk
  classical
  have himg : (Finset.range n).image f ⊆ Finset.range n := by
    intro x hx
    rw [Finset.mem_image] at hx
    obtain ⟨i, hmem, rfl⟩ := hx
    exact Finset.mem_range.mpr (hb i (Finset.mem_range.mp hmem))
  have hcard : n ≤ ((Finset.range n).image f).card := by
    rw [Finset.card_image_of_injOn]
    · rw [Finset.card_range]
    · intro a ha b hb2 hab
      exact hi a b (Finset.mem_range.mp ha) (Finset.mem_range.mp hb2) hab
  have heq : (Finset.range n).image f = Finset.range n :=
    Finset.eq_of_subset_of_card_le himg (le_trans (le_of_eq (Finset.card_range n)) hcard)
  have hk2 : k ∈ (Finset.range n).image f := by
    rw [heq]
    exact Finset.mem_range.mpr hk
  rw [Finset.mem_image] at hk2
  obtain ⟨i, hmem, hfi⟩ := hk2
  exact ⟨i, Finset.mem_range.mp hmem, hfi⟩

/-- C8: for every valid configuration, each column of the unit layout has
exactly one value in each of the nSamples equal-width half-open strata of
the unit interval, both before the per-column row permutation (the raw
matrix of _lhs_normalized) and after it (its returned matrix). The column
permutation itself is modelled from the spec (random_permute_matrix lives in
skopt/utils.py, outside src/), as a bounded injective reindexing per
column. -/
theorem c8_stratification (uVal : ℕ → ℕ → ℚ) (permOf : ℕ → ℕ → ℕ → ℕ → ℕ)
    (self : Lhs) (nDim nSamples : ℕ) (rs : RState) (hn : 0 < nSamples)
    (hmode : self.lhs_type = "classic" ∨ self.lhs_type = "centered")
    (hu : ∀ i j, i < nSamples → j < nDim →
      0 ≤ uFrom uVal rs nDim i j ∧ uFrom uVal rs nDim i j < 1)
    (hperm : ∀ j, j < nDim →
      (∀ i, i < nSamples →
        permOf (checkRandomState (advanceR rs (nSamples * nDim))).1
          (checkRandomState (advanceR rs (nSamples * nDim))).2 j i < nSamples)
      ∧ ∀ i i2, i < nSamples → i2 < nSamples →
          permOf (checkRandomState (advanceR rs (nSamples * nDim))).1
            (checkRandomState (advanceR rs (nSamples * nDim))).2 j i
          = permOf (checkRandomState (advanceR rs (nSamples * nDim))).1
            (checkRandomState (advanceR rs (nSamples * nDim))).2 j i2 →
          i = i2) :
    ∃ hRaw m,
      lhsRaw self.lhs_type (uFrom uVal rs nDim) nDim nSamples = .ok hRaw
      ∧ (self.lhs_normalized uVal permOf nDim nSamples rs).1 = .ok m
      ∧ ∀ j, j < nDim → ∀ k, k < nSamples →
        ((∃ i, i < nSamples ∧ inStratum nSamples (entry hRaw i j) k
           ∧ ∀ i2, i2 < nSamples → inStratum nSamples (entry hRaw i2 j) k
              → i2 = i)
        ∧ (∃ i, i < nSamples ∧ inStratum nSamples (entry m i j) k
           ∧ ∀ i2, i2 < nSamples → inStratum nSamples (entry m i2 j) k
              → i2 = i)) := by
  obtain ⟨hRaw, hR⟩ : ∃ hRaw, lhsRaw self.lhs_type (uFrom uVal rs nDim)
      nDim nSamples = .ok hRaw := by
    rcases hmode with hc | hc <;> rw [hc]
    · exact ⟨_, lhsRaw_classic_eq _ _ _⟩
    · exact ⟨_, lhsRaw_centered_eq _ _ _⟩
  obtain ⟨m, hM⟩ : ∃ m, (self.lhs_normalized uVal permOf nDim nSamples rs).1
      = .ok m := by
    simp [Lhs.lhs_normalized, hR, random_permute_matrix]
  obtain ⟨hlen, hhead⟩ := lhsRaw_shape self.lhs_type (uFrom uVal rs nDim)
    nDim nSamples hmode hn hRaw hR
  refine ⟨hRaw, m, hR, hM, ?_⟩
  intro j hj k hk
  have hraw_mem : ∀ i, i < nSamples → inStratum nSamples (entry hRaw i j) i :=
    fun i hi => entry_raw_mem self.lhs_type (uFrom uVal rs nDim) nDim nSamples
      hmode hn hu hRaw hR i j hi hj
  have hmem_unique : ∀ i, i < nSamples →
      inStratum nSamples (entry hRaw i j) k → i = k := by
    intro i hi hik
    exact inStratum_unique nSamples i k (entry hRaw i j) hn (hraw_mem i hi) hik
  constructor
  · exact ⟨k, hk, hraw_mem k hk, fun i2 hi2 hmem => hmem_unique i2 hi2 hmem⟩
  · obtain ⟨hpb, hpi⟩ := hperm j hj
    obtain ⟨i0, hi0, hfi0⟩ := surj_of_inj_on_range _ nSamples hpb hpi k hk
    have hentry : ∀ i, i < nSamples → entry m i j
        = entry hRaw (permOf (checkRandomState (advanceR rs (nSamples * nDim))).1
            (checkRandomState (advanceR rs (nSamples * nDim))).2 j i) j :=
      fun i hi => lhs_normalized_entry uVal permOf self nDim nSamples rs hRaw
        hR hlen hhead m hM i j hi hj
    refine ⟨i0, hi0, ?_, ?_⟩
    · rw [hentry i0 hi0, hfi0]
      exact hraw_mem k hk
    · intro i2 hi2 hmem
      rw [hentry i2 hi2] at hmem
      have hk2 : permOf (checkRandomState (advanceR rs (nSamples * nDim))).1
          (checkRandomState (advanceR rs (nSamples * nDim))).2 j i2 = k :=
        hmem_unique _ (hpb i2 hi2) hmem
      exact hpi i2 i0 hi2 hi0 (by rw [hk2, hfi0])

/-- C8 witness: the stratification statement at a concrete configuration
(two samples, one dimension, classic mode, order-reversing column
permutation). -/
theorem c8_stratification_witness :
    (0 < 2)
    ∧ (("classic" : String) = "classic" ∨ ("classic" : String) = "centered")
    ∧ ∃ hRaw m,
      lhsRaw "classic" (uFrom uHalf (.intSeed 0) 1) 1 2 = .ok hRaw
      ∧ (Lhs.lhs_normalized uHalf permRev2 ⟨"classic", some "maximin", 1⟩ 1 2
          (.intSeed 0)).1 = .ok m
      ∧ ∀ j, j < 1 → ∀ k, k < 2 →
        ((∃ i, i < 2 ∧ inStratum 2 (entry hRaw i j) k
           ∧ ∀ i2, i2 < 2 → inStratum 2 (entry hRaw i2 j) k → i2 = i)
        ∧ (∃ i, i < 2 ∧ inStratum 2 (entry m i j) k
           ∧ ∀ i2, i2 < 2 → inStratum 2 (entry m i2 j) k → i2 = i)) :=
  ⟨by decide, Or.inl rfl,
    c8_stratification uHalf permRev2 ⟨"classic", some "maximin", 1⟩ 1 2
      (.intSeed 0) (by decide) (Or.inl rfl)
      (fun i j hi hj => by norm_num [uFrom, uHalf])
      (fun j hj => ⟨fun i hi => by simp [permRev2]; omega,
        fun i i2 hi hi2 he => by simp [permRev2] at he; omega⟩)⟩

/-- C9: in centered mode every pre-permutation entry equals its stratum
midpoint exactly, independently of the random source; and in the scenario
n_dim = 2, n_samples = 5, criterion = None (on a fully continuous space
where the normalize inverse transform is the identity on the unit layout),
every column of the generated layout takes each of the five midpoints
{1/10, 3/10, 1/2, 7/10, 9/10} exactly once. The column permutation is
modelled from the spec (random_permute_matrix lives outside src/). -/
theorem c9_centered_midpoints (uVal : ℕ → ℕ → ℚ) (permOf : ℕ → ℕ → ℕ → ℕ → ℕ)
    (invT trT : String → Mat → Mat) (pdistE : Mat → List ℚ)
    (corrcoefE : Mat → Mat) (tr0 : String) (rs : RState) (it : ℕ)
    (hinv : ∀ mm, invT transNormalize mm = mm)
    (hperm : ∀ j, j < 2 →
      (∀ i, i < 5 →
        permOf (checkRandomState (advanceR rs (5 * 2))).1
          (checkRandomState (advanceR rs (5 * 2))).2 j i < 5)
      ∧ ∀ i i2, i < 5 → i2 < 5 →
          permOf (checkRandomState (advanceR rs (5 * 2))).1
            (checkRandomState (advanceR rs (5 * 2))).2 j i
          = permOf (checkRandomState (advanceR rs (5 * 2))).1
            (checkRandomState (advanceR rs (5 * 2))).2 j i2 →
          i = i2) :
    (∀ (u u2 : ℕ → ℕ → ℚ) (nDim nSamples : ℕ),
        lhsRaw "centered" u nDim nSamples = lhsRaw "centered" u2 nDim nSamples)
    ∧ (∀ (u : ℕ → ℕ → ℚ) (nDim nSamples : ℕ) (h : Mat), 0 < nSamples →
        lhsRaw "centered" u nDim nSamples = .ok h →
        ∀ i, i < nSamples → ∀ j, j < nDim →
          entry h i j = (2 * (i : ℚ) + 1) / (2 * (nSamples : ℚ)))
    ∧ (∀ out, (Lhs.generate uVal permOf invT trT pdistE corrcoefE
          ⟨"centered", none, it⟩ ⟨2, false, tr0⟩ 5 rs).1 = .ok out →
        ∀ j, j < 2 →
          (∀ i, i < 5 → entry out i j ∈ mids5)
          ∧ ∀ v, v ∈ mids5 → ∃ i, i < 5 ∧ entry out i j = v
              ∧ ∀ i2, i2 < 5 → entry out i2 j = v → i2 = i) := by
  have hbval : ∀ (u : ℕ → ℕ → ℚ) (nDim nSamples : ℕ) (h : Mat), 0 < nSamples →
      lhsRaw "centered" u nDim nSamples = .ok h →
      ∀ i, i < nSamples → ∀ j, j < nDim →
        entry h i j = 1 / (2 * (nSamples : ℚ)) + (i : ℚ) / nSamples := by
    intro u nDim nSamples h hn hR i hi j hj
    rw [lhsRaw_centered_eq] at hR
    injection hR with hR
    subst hR
    simp only [entry]
    rw [getD_map_range _ _ _ _ hi, getD_map_range _ _ _ _ hj]
  refine ⟨fun u u2 nDim nSamples => rfl, ?_, ?_⟩
  · intro u nDim nSamples h hn hR i hi j hj
    have hpos : (0 : ℚ) < nSamples := by exact_mod_cast hn
    rw [hbval u nDim nSamples h hn hR i hi j hj]
    field_simp
    ring
  · intro out hok j hj
    have hR := lhsRaw_centered_eq (uFrom uVal rs 2) 2 5
    obtain ⟨hlen, hhead⟩ := lhsRaw_shape "centered" (uFrom uVal rs 2) 2 5
      (Or.inr rfl) (by norm_num) _ hR
    obtain ⟨⟨m, hM⟩, htr⟩ := lhs_normalized_ok uVal permOf
      ⟨"centered", none, it⟩ 2 5 rs (Or.inr rfl)
    have hout : out = m := by
      simp [Lhs.generate, hM, hinv] at hok
      exact hok.symm
    have hentry : ∀ i, i < 5 → entry out i j
        = 1 / (2 * (5 : ℚ))
          + ((permOf (checkRandomState (advanceR rs (5 * 2))).1
              (checkRandomState (advanceR rs (5 * 2))).2 j i : ℕ) : ℚ) / 5 := by
      intro i hi
      rw [hout, lhs_normalized_entry uVal permOf ⟨"centered", none, it⟩ 2 5 rs
        _ hR hlen hhead m hM i j hi hj]
      exact hbval (uFrom uVal rs 2) 2 5 _ (by norm_num) hR _
        ((hperm j hj).1 i hi) j hj
    have hmem5 : ∀ kv : ℕ, kv < 5 →
        (1 / (2 * (5 : ℚ)) + (kv : ℚ) / 5) ∈ mids5 := by
      intro kv hkv
      interval_cases kv <;> norm_num [mids5]
    have hmidinj : ∀ a b : ℕ,
        1 / (2 * (5 : ℚ)) + (a : ℚ) / 5 = 1 / (2 * (5 : ℚ)) + (b : ℚ) / 5 →
        a = b := by
      intro a b hab
      have h1 : (a : ℚ) = b := by linarith
      exact_mod_cast h1
    obtain ⟨hpb, hpi⟩ := hperm j hj
    constructor
    · intro i hi
      rw [hentry i hi]
      exact hmem5 _ (hpb i hi)
    · intro v hv
      have hvk : ∃ kv : ℕ, kv < 5 ∧ v = 1 / (2 * (5 : ℚ)) + (kv : ℚ) / 5 := by
        simp only [mids5, List.mem_cons, List.not_mem_nil, or_false] at hv
        rcases hv with h | h | h | h | h <;> subst h
        · exact ⟨0, by norm_num, by norm_num⟩
        · exact ⟨1, by norm_num, by norm_num⟩
        · exact ⟨2, by norm_num, by norm_num⟩
        · exact ⟨3, by norm_num, by norm_num⟩
        · exact ⟨4, by norm_num, by norm_num⟩
      obtain ⟨kv, hkv, rfl⟩ := hvk
      obtain ⟨i0, hi0, hfi0⟩ := surj_of_inj_on_range
        (permOf (checkRandomState (advanceR rs (5 * 2))).1
          (checkRandomState (advanceR rs (5 * 2))).2 j) 5 hpb hpi kv hkv
      refine ⟨i0, hi0, ?_, ?_⟩
      · rw [hentry i0 hi0, hfi0]
      · intro i2 hi2 he
        rw [hentry i2 hi2] at he
        exact hpi i2 i0 hi2 hi0 (by rw [hmidinj _ _ he, hfi0])

/-- C9 witness: the centered-midpoint statement at a concrete input. -/
theorem c9_centered_midpoints_witness :
    (∀ mm, idTransf transNormalize mm = mm)
    ∧ lhsRaw "centered" uHalf 2 5 = lhsRaw "centered" (fun _ _ => 1/3) 2 5
    ∧ (∀ j, j < 2 →
        (∀ i, i < 5 →
          entry [[1/10, 1/10], [3/10, 3/10], [1/2, 1/2], [7/10, 7/10],
            [9/10, 9/10]] i j ∈ mids5)
        ∧ ∀ v, v ∈ mids5 → ∃ i, i < 5
            ∧ entry [[1/10, 1/10], [3/10, 3/10], [1/2, 1/2], [7/10, 7/10],
                [9/10, 9/10]] i j = v
            ∧ ∀ i2, i2 < 5 →
                entry [[1/10, 1/10], [3/10, 3/10], [1/2, 1/2], [7/10, 7/10],
                  [9/10, 9/10]] i2 j = v → i2 = i) :=
  ⟨fun mm => rfl,
    (c9_centered_midpoints uHalf permId idTransf idTransf pdOne corrId
      "onehot" (.intSeed 0) 1000 (fun mm => rfl)
      (fun j hj => ⟨fun i hi => by simpa [permId] using hi,
        fun i i2 hi hi2 he => by simpa [permId] using he⟩)).1 uHalf
      (fun _ _ => 1/3) 2 5,
    (c9_centered_midpoints uHalf permId idTransf idTransf pdOne corrId
      "onehot" (.intSeed 0) 1000 (fun mm => rfl)
      (fun j hj => ⟨fun i hi => by simpa [permId] using hi,
        fun i i2 hi hi2 he => by simpa [permId] using he⟩)).2.2
      [[1/10, 1/10], [3/10, 3/10], [1/2, 1/2], [7/10, 7/10], [9/10, 9/10]]
      (by decide)⟩

/-- Any initial value or list element is bounded by the running maximum. -/
theorem le_foldl_max (l : List ℚ) : ∀ a x : ℚ, (x ≤ a ∨ x ∈ l) →
    x ≤ l.foldl max a := by
  induction l with
  | nil =>
    intro a x hx
    rcases hx with h | h
    · exact h
    · cases h
  | cons b t ih =>
    intro a x hx
    rcases hx with h | h
    · exact ih (max a b) x (Or.inl (le_trans h (le_max_left a b)))
    · rcases List.mem_cons.mp h with rfl | h2
      · exact ih (max a x) x (Or.inl (le_max_right a x))
      · exact ih (max a b) x (Or.inr h2)

/-- The running maximum is the initial value or one of the elements. -/
theorem foldl_max_mem (l : List ℚ) : ∀ a : ℚ,
    l.foldl max a = a ∨ l.foldl max a ∈ l := by
  induction l with
  | nil => exact fun a => Or.inl rfl
  | cons b t ih =>
    intro a
    rcases ih (max a b) with h | h
    · rcases max_cases a b with ⟨he, _⟩ | ⟨he, _⟩
      · exact Or.inl (by rw [List.foldl_cons, h, he])
      · refine Or.inr ?_
        rw [List.foldl_cons, h, he]
        exact List.mem_cons_self b t
    · exact Or.inr (List.mem_cons_of_mem b h)

/-- np.max returns a member of the array. -/
theorem npMax_mem (l : List ℚ) (a : ℚ) (h : npMax l = .ok a) : a ∈ l := by
  cases l with
  | nil => cases h
  | cons b t =>
    injection h with h
    subst h
    rcases foldl_max_mem t b with h2 | h2
    · rw [h2]
      exact List.mem_cons_self b t
    · exact List.mem_cons_of_mem b h2

/-- np.max bounds every member of the array. -/
theorem npMax_le (l : List ℚ) (a x : ℚ) (h : npMax l = .ok a) (hx : x ∈ l) :
    x ≤ a := by
  cases l with
  | nil => cases h
  | cons b t =>
    injection h with h
    subst h
    rcases List.mem_cons.mp hx with rfl | h2
    · exact le_foldl_max t _ _ (Or.inl (le_refl _))
    · exact le_foldl_max t b x (Or.inr h2)

/-- np.max of a nonempty array equals any member that bounds the array. -/
theorem npMax_eq (l : List ℚ) (a : ℚ) (hmem : a ∈ l)
    (hub : ∀ x ∈ l, x ≤ a) : npMax l = .ok a := by
  cases l with
  | nil => cases hmem
  | cons b t =>
    simp only [npMax]
    congr 1
    refine le_antisymm ?_ ?_
    · rcases foldl_max_mem t b with h | h
      · rw [h]
        exact hub b (List.mem_cons_self b t)
      · exact hub _ (List.mem_cons_of_mem b h)
    · rcases List.mem_cons.mp hmem with rfl | h2
      · exact le_foldl_max t a a (Or.inl (le_refl a))
      · exact le_foldl_max t b a (Or.inr h2)

/-- Membership in the square index enumeration. -/
theorem mem_idxPairs (n : ℕ) (p : ℕ × ℕ) :
    p ∈ idxPairs n ↔ p.1 < n ∧ p.2 < n := by
  cases p with
  | mk a b =>
    simp [idxPairs, List.mem_flatMap, List.mem_map, List.mem_range,
      Prod.mk.injEq]

/-- absQ is nonnegative. -/
theorem absQ_nonneg (v : ℚ) : 0 ≤ absQ v := by
  unfold absQ
  split <;> linarith

/-- On a unit-diagonal correlation matrix with no off-diagonal coefficient
exactly 1, the boolean mask r != 1 keeps exactly the off-diagonal entries. -/
theorem maskedAbsMax_eq_offDiag (r : Mat) (hdiag : ∀ i, i < r.length →
      entry r i i = 1)
    (hoff : ∀ i j, i < r.length → j < r.length → i ≠ j → entry r i j ≠ 1) :
    maskedAbsMax r = maxAbsOffDiag r := by
  unfold maskedAbsMax maxAbsOffDiag
  congr 2
  apply List.filter_congr
  intro p hp
  obtain ⟨h1, h2⟩ := (mem_idxPairs r.length p).mp hp
  by_cases hij : p.1 = p.2
  · have hb1 : (entry r p.1 p.2 != 1) = false := by
      simp [hij, hdiag p.2 h2]
    have hb2 : (p.1 != p.2) = false := by simp [hij]
    rw [hb1, hb2]
  · have hb1 : (entry r p.1 p.2 != 1) = true := by
      simpa using hoff p.1 p.2 h1 h2 hij
    have hb2 : (p.1 != p.2) = true := by simpa using hij
    rw [hb1, hb2]

/-- np.max succeeds on any array with a member. -/
theorem npMax_ok_of_mem (l : List ℚ) (x : ℚ) (hx : x ∈ l) :
    ∃ a, npMax l = .ok a := by
  cases l with
  | nil => cases hx
  | cons b t => exact ⟨_, rfl⟩

set_option maxHeartbeats 2000000 in
/-- On a unit-diagonal correlation matrix (with at least two dimensions),
np.max(np.abs(r - eye)) is the maximum absolute off-diagonal coefficient. -/
theorem corrStoredScore_eq_offDiag (r : Mat) (h2n : 2 ≤ r.length)
    (hdiag : ∀ i, i < r.length → entry r i i = 1) :
    corrStoredScore r = maxAbsOffDiag r := by
  have hmem01 : ((0 : ℕ), (1 : ℕ)) ∈ (idxPairs r.length).filter
      fun p => p.1 != p.2 := by
    rw [List.mem_filter]
    constructor
    · exact (mem_idxPairs r.length (0, 1)).mpr ⟨by omega, by omega⟩
    · decide
  obtain ⟨b, hb⟩ : ∃ b, maxAbsOffDiag r = .ok b :=
    npMax_ok_of_mem _ (absQ (entry r 0 1)) (List.mem_map_of_mem _ hmem01)
  rw [hb]
  have hbmem := npMax_mem _ b hb
  rw [List.mem_map] at hbmem
  obtain ⟨p0, hp0mem, hp0val⟩ := hbmem
  obtain ⟨hp0pairs, hp0ne⟩ := List.mem_filter.mp hp0mem
  obtain ⟨hp01, hp02⟩ := (mem_idxPairs r.length p0).mp hp0pairs
  have hp0ne2 : p0.1 ≠ p0.2 := by simpa using hp0ne
  have hbnn : 0 ≤ b := by
    rw [← hp0val]
    exact absQ_nonneg _
  apply npMax_eq
  · rw [List.mem_map]
    refine ⟨p0, hp0pairs, ?_⟩
    rw [if_neg hp0ne2, sub_zero, hp0val]
  · intro x hx
    rw [List.mem_map] at hx
    obtain ⟨p, hpmem, hpval⟩ := hx
    obtain ⟨hq1, hq2⟩ := (mem_idxPairs r.length p).mp hpmem
    by_cases hij : p.1 = p.2
    · rw [← hpval, if_pos hij, hij, hdiag p.2 hq2]
      simpa [absQ] using hbnn
    · rw [← hpval, if_neg hij, sub_zero]
      apply npMax_le _ b _ hb
      rw [List.mem_map]
      refine ⟨p, ?_, rfl⟩
      rw [List.mem_filter]
      exact ⟨hpmem, by simpa using hij⟩

/-- C10 (amended): for a unit-diagonal correlation matrix of at least two
dimensions, the score the correlation branch stores on replacement
(np.max(np.abs(r - eye)), corrStoredScore) always equals the maximum
absolute off-diagonal coefficient, while the score it tests against the
running best (np.max(np.abs(r[r != 1])), maskedAbsMax) equals it exactly
when no off-diagonal coefficient is exactly 1 — the masked maximum drops
off-diagonal coefficients equal to 1. -/
theorem c10_amended_scores (r : Mat) (n : ℕ) (hn : r.length = n) (h2n : 2 ≤ n)
    (hdiag : ∀ i, i < n → entry r i i = 1)
    (hoff : ∀ i j, i < n → j < n → i ≠ j → entry r i j ≠ 1) :
    maskedAbsMax r = maxAbsOffDiag r
    ∧ corrStoredScore r = maxAbsOffDiag r := by
  subst hn
  exact ⟨maskedAbsMax_eq_offDiag r hdiag hoff,
    corrStoredScore_eq_offDiag r h2n hdiag⟩

/-- C10 witness: the amended statement at a concrete correlation matrix. -/
theorem c10_amended_witness :
    ([[1, 1/2], [1/2, 1]] : Mat).length = 2
    ∧ (2 : ℕ) ≤ 2
    ∧ maskedAbsMax [[1, 1/2], [1/2, 1]]
        = maxAbsOffDiag [[1, 1/2], [1/2, 1]]
    ∧ corrStoredScore [[1, 1/2], [1/2, 1]]
        = maxAbsOffDiag [[1, 1/2], [1/2, 1]] :=
  ⟨rfl, by decide,
    (c10_amended_scores [[1, 1/2], [1/2, 1]] 2 rfl (by decide)
      (by intro i hi; interval_cases i <;> decide)
      (by intro i j hi hj hne; interval_cases i <;> interval_cases j <;>
        revert hne <;> decide)).1,
    (c10_amended_scores [[1, 1/2], [1/2, 1]] 2 rfl (by decide)
      (by intro i hi; interval_cases i <;> decide)
      (by intro i j hi hj hne; interval_cases i <;> interval_cases j <;>
        revert hne <;> decide)).2⟩

/-- C3: with an integer random_state, every _lhs_normalized call inside one
generate invocation re-creates the generator from that same integer (the
int-seed state is immutable under stream advance), so all iterations of the
optimizing loop evaluate the same candidate; whenever generate returns a
layout it equals the iteration-0 candidate's layout, for every criterion
(assuming, on partly categorical spaces, that the label transform round
trips). -/
theorem c3_intseed_determinism (uVal : ℕ → ℕ → ℚ) (permOf : ℕ → ℕ → ℕ → ℕ → ℕ)
    (invT trT : String → Mat → Mat) (pdistE : Mat → List ℚ)
    (corrcoefE : Mat → Mat) (self : Lhs) (space : SpaceDesc)
    (nSamples s : ℕ)
    (hroundtrip : ∀ mm, invT transCatInt (trT transCatInt mm) = mm)
    (out hm : Mat)
    (hok : (Lhs.generate uVal permOf invT trT pdistE corrcoefE
        self space nSamples (.intSeed s)).1 = .ok out)
    (hN : (self.lhs_normalized uVal permOf space.nDims nSamples
        (.intSeed s)).1 = .ok hm) :
    (∀ k, self.lhs_normalized uVal permOf space.nDims nSamples
        (advanceR (.intSeed s) k)
      = self.lhs_normalized uVal permOf space.nDims nSamples (.intSeed s))
    ∧ out = invT transNormalize hm := by
  refine ⟨fun k => rfl, ?_⟩
  by_cases hcond : self.criterion = none ∨ nSamples = 1
  · simp only [Lhs.generate, hN] at hok
    rw [if_pos hcond] at hok
    simpa using hok.symm
  · simp only [Lhs.generate, hN,
      lhs_normalized_intSeed_rstate uVal permOf self space.nDims nSamples s]
      at hok
    rw [if_neg hcond] at hok
    by_cases h1 : self.criterion = some "correlation"
    · rw [if_pos h1] at hok
      obtain ⟨st, hP, hout⟩ := runLoop_inv_out _
        (fun st => st.hOpt = invT transNormalize hm ∧ st.rstate = .intSeed s)
        (corrStep_intSeed_inv uVal permOf invT trT corrcoefE self space
          nSamples s hm hN hroundtrip)
        self.iterations _ ⟨rfl, rfl⟩ _ out hok
      exact hout.symm.trans hP.1
    · rw [if_neg h1] at hok
      by_cases h2 : self.criterion = some "maximin"
      · rw [if_pos h2] at hok
        obtain ⟨st, hP, hout⟩ := runLoop_inv_out _
          (fun st => st.hOpt = invT transNormalize hm ∧ st.rstate = .intSeed s)
          (maximinStep_intSeed_inv uVal permOf invT trT pdistE self space
            nSamples s hm hN hroundtrip)
          self.iterations _ ⟨rfl, rfl⟩ _ out hok
        exact hout.symm.trans hP.1
      · rw [if_neg h2] at hok
        by_cases h3 : self.criterion = some "ratio"
        · rw [if_pos h3] at hok
          obtain ⟨st, hP, hout⟩ := runLoop_inv_out _
            (fun st => st.hOpt = invT transNormalize hm ∧ st.rstate = .intSeed s)
            (ratioStep_intSeed_inv uVal permOf invT trT pdistE self space
              nSamples s hm hN hroundtrip)
            self.iterations _ ⟨rfl, rfl⟩ _ out hok
          exact hout.symm.trans hP.1
        · rw [if_neg h3] at hok
          simp at hok

/-- C3 witness: the seed-determinism statement at a concrete input (maximin
criterion, two optimizing iterations). -/
theorem c3_intseed_determinism_witness :
    (∀ mm, idTransf transCatInt (idTransf transCatInt mm) = mm)
    ∧ (Lhs.generate uHalf permId idTransf idTransf pdOne corrId
        ⟨"classic", some "maximin", 2⟩ ⟨1, false, "onehot"⟩ 2 (.intSeed 0)).1
      = .ok [[1/4], [3/4]]
    ∧ (Lhs.lhs_normalized uHalf permId ⟨"classic", some "maximin", 2⟩ 1 2
        (.intSeed 0)).1 = .ok [[1/4], [3/4]]
    ∧ [[(1 : ℚ)/4], [3/4]] = idTransf transNormalize [[1/4], [3/4]] :=
  ⟨fun mm => rfl, by decide, by decide,
    (c3_intseed_determinism uHalf permId idTransf idTransf pdOne corrId
      ⟨"classic", some "maximin", 2⟩ ⟨1, false, "onehot"⟩ 2 0
      (fun mm => rfl) [[1/4], [3/4]] [[1/4], [3/4]]
      (by decide) (by decide)).2⟩

/-- C4 (amended): for every criterion string outside {None, correlation,
maximin, ratio}, with a valid lhs_type and n_samples ≠ 1, generate raises
the configuration error before the optimizing loop starts — the trace shows
no distance and no correlation computation — but only after exactly one
candidate has been sampled (one uniform-draw event) and transformed to the
domain representation. -/
theorem c4_amended_error_before_loop (uVal : ℕ → ℕ → ℚ)
    (permOf : ℕ → ℕ → ℕ → ℕ → ℕ) (invT trT : String → Mat → Mat)
    (pdistE : Mat → List ℚ) (corrcoefE : Mat → Mat)
    (self : Lhs) (space : SpaceDesc) (nSamples : ℕ) (rs : RState) (c : String)
    (hlt : self.lhs_type = "classic" ∨ self.lhs_type = "centered")
    (hc : self.criterion = some c)
    (hc1 : c ≠ "correlation") (hc2 : c ≠ "maximin") (hc3 : c ≠ "ratio")
    (hn : nSamples ≠ 1) :
    (Lhs.generate uVal permOf invT trT pdistE corrcoefE
        self space nSamples rs).1 = .error ("Wrong criterion.Got " ++ c)
    ∧ countRand (Lhs.generate uVal permOf invT trT pdistE corrcoefE
        self space nSamples rs).2.2 = 1
    ∧ Ev.invTransf ∈ (Lhs.generate uVal permOf invT trT pdistE corrcoefE
        self space nSamples rs).2.2
    ∧ Ev.pdistCall ∉ (Lhs.generate uVal permOf invT trT pdistE corrcoefE
        self space nSamples rs).2.2
    ∧ Ev.corrcoefCall ∉ (Lhs.generate uVal permOf invT trT pdistE corrcoefE
        self space nSamples rs).2.2 := by
  rw [generate_bogus_criterion uVal permOf invT trT pdistE corrcoefE self space
      nSamples rs c hlt hc hc1 hc2 hc3 hn]
  cases hcat : space.isPartlyCategorical <;>
    simp [countRand, isRandEv, hcat]

/-- C4 witness: the amended statement exercised at a concrete input. -/
theorem c4_amended_witness :
    ((⟨"classic", some "bogus", 5⟩ : Lhs).lhs_type = "classic"
      ∨ (⟨"classic", some "bogus", 5⟩ : Lhs).lhs_type = "centered")
    ∧ (⟨"classic", some "bogus", 5⟩ : Lhs).criterion = some "bogus"
    ∧ (2 : ℕ) ≠ 1
    ∧ (Lhs.generate uHalf permId idTransf idTransf pdOne corrId
        ⟨"classic", some "bogus", 5⟩ ⟨1, false, "onehot"⟩ 2 (.intSeed 0)).1
      = .error ("Wrong criterion.Got " ++ "bogus")
    ∧ countRand (Lhs.generate uHalf permId idTransf idTransf pdOne corrId
        ⟨"classic", some "bogus", 5⟩ ⟨1, false, "onehot"⟩ 2 (.intSeed 0)).2.2 = 1 :=
  ⟨Or.inl rfl, rfl, by decide,
    (c4_amended_error_before_loop uHalf permId idTransf idTransf pdOne corrId
      ⟨"classic", some "bogus", 5⟩ ⟨1, false, "onehot"⟩ 2 (.intSeed 0) "bogus"
      (Or.inl rfl) rfl (by decide) (by decide) (by decide) (by decide)).1,
    (c4_amended_error_before_loop uHalf permId idTransf idTransf pdOne corrId
      ⟨"classic", some "bogus", 5⟩ ⟨1, false, "onehot"⟩ 2 (.intSeed 0) "bogus"
      (Or.inl rfl) rfl (by decide) (by decide) (by decide) (by decide)).2.1⟩

/-- C5 (amended): the constructor stores the configuration without any
validation and never raises; the unknown-lhs_type error surfaces later,
inside _lhs_normalized during generate, and only after the uniform random
matrix has been drawn (the rand draw precedes the lhs_type check). -/
theorem c5_amended_deferred_validation (lt : String) (c : Option String)
    (it : ℕ) (uVal : ℕ → ℕ → ℚ) (permOf : ℕ → ℕ → ℕ → ℕ → ℕ)
    (nDim nSamples : ℕ) (rs : RState)
    (h1 : lt ≠ "classic") (h2 : lt ≠ "centered") :
    lhsInit lt c it = .ok ⟨lt, c, it⟩
    ∧ Lhs.lhs_normalized uVal permOf ⟨lt, c, it⟩ nDim nSamples rs
        = (.error "Wrong lhs_type. Got ", advanceR rs (nSamples * nDim),
           [.rand (nSamples * nDim)]) :=
  ⟨rfl, lhs_normalized_badtype uVal permOf ⟨lt, c, it⟩ nDim nSamples rs h1 h2⟩

/-- C5 witness: the amended statement exercised at a concrete input. -/
theorem c5_amended_witness :
    ("bogus" : String) ≠ "classic" ∧ ("bogus" : String) ≠ "centered"
    ∧ lhsInit "bogus" (some "maximin") 17 = .ok ⟨"bogus", some "maximin", 17⟩
    ∧ Lhs.lhs_normalized uHalf permId ⟨"bogus", some "maximin", 17⟩ 1 2
        (.intSeed 3)
      = (.error "Wrong lhs_type. Got ", advanceR (.intSeed 3) (2 * 1),
         [.rand (2 * 1)]) :=
  ⟨by decide, by decide,
    (c5_amended_deferred_validation "bogus" (some "maximin") 17 uHalf permId 1 2
      (.intSeed 3) (by decide) (by decide)).1,
    (c5_amended_deferred_validation "bogus" (some "maximin") 17 uHalf permId 1 2
      (.intSeed 3) (by decide) (by decide)).2⟩

/-- C6 (amended): generate restores the adapter's entry mapping mode on
every normal return, but not on the configuration-error exits: when an
unknown lhs_type or an unknown criterion aborts the call partway, the
transformer is left set to "normalize" instead of the entry mode. -/
theorem c6_amended_restore (uVal : ℕ → ℕ → ℚ) (permOf : ℕ → ℕ → ℕ → ℕ → ℕ)
    (invT trT : String → Mat → Mat) (pdistE : Mat → List ℚ)
    (corrcoefE : Mat → Mat) (self : Lhs) (space : SpaceDesc) (nSamples : ℕ)
    (rs : RState) :
    (∀ out, (Lhs.generate uVal permOf invT trT pdistE corrcoefE
        self space nSamples rs).1 = .ok out →
      (Lhs.generate uVal permOf invT trT pdistE corrcoefE
        self space nSamples rs).2.1 = space.initTransformer)
    ∧ (self.lhs_type ≠ "classic" → self.lhs_type ≠ "centered" →
        (Lhs.generate uVal permOf invT trT pdistE corrcoefE
          self space nSamples rs).1 = .error "Wrong lhs_type. Got "
        ∧ (Lhs.generate uVal permOf invT trT pdistE corrcoefE
          self space nSamples rs).2.1 = transNormalize)
    ∧ (∀ c, self.lhs_type = "classic" ∨ self.lhs_type = "centered" →
        self.criterion = some c → c ≠ "correlation" → c ≠ "maximin" →
        c ≠ "ratio" → nSamples ≠ 1 →
        (Lhs.generate uVal permOf invT trT pdistE corrcoefE
          self space nSamples rs).1 = .error ("Wrong criterion.Got " ++ c)
        ∧ (Lhs.generate uVal permOf invT trT pdistE corrcoefE
          self space nSamples rs).2.1 = transNormalize) := by
  refine ⟨fun out hok => generate_ok_trans uVal permOf invT trT pdistE corrcoefE
      self space nSamples rs out hok,
    fun h1 h2 => ?_, fun c hlt hc hc1 hc2 hc3 hn => ?_⟩
  · rw [generate_badtype uVal permOf invT trT pdistE corrcoefE self space
        nSamples rs h1 h2]
    exact ⟨rfl, rfl⟩
  · rw [generate_bogus_criterion uVal permOf invT trT pdistE corrcoefE self
        space nSamples rs c hlt hc hc1 hc2 hc3 hn]
    exact ⟨rfl, rfl⟩

/-- C6 witness: the amended statement exercised at concrete inputs covering
a normal return, a bad lhs_type, and a bad criterion. -/
theorem c6_amended_witness :
    ((Lhs.generate uHalf permId idTransf idTransf pdOne corrId
        ⟨"classic", some "maximin", 1⟩ ⟨1, false, "onehot"⟩ 2 (.intSeed 0)).1
      = .ok [[1/4], [3/4]]
     ∧ (Lhs.generate uHalf permId idTransf idTransf pdOne corrId
        ⟨"classic", some "maximin", 1⟩ ⟨1, false, "onehot"⟩ 2 (.intSeed 0)).2.1
      = "onehot")
    ∧ (Lhs.generate uHalf permId idTransf idTransf pdOne corrId
        ⟨"bogus", none, 3⟩ ⟨1, false, "onehot"⟩ 2 (.intSeed 0)).2.1
      = transNormalize
    ∧ (Lhs.generate uHalf permId idTransf idTransf pdOne corrId
        ⟨"classic", some "bogus", 3⟩ ⟨1, false, "onehot"⟩ 2 (.intSeed 0)).2.1
      = transNormalize :=
  ⟨⟨by decide,
    (c6_amended_restore uHalf permId idTransf idTransf pdOne corrId
      ⟨"classic", some "maximin", 1⟩ ⟨1, false, "onehot"⟩ 2 (.intSeed 0)).1
      [[1/4], [3/4]] (by decide)⟩,
   ((c6_amended_restore uHalf permId idTransf idTransf pdOne corrId
      ⟨"bogus", none, 3⟩ ⟨1, false, "onehot"⟩ 2 (.intSeed 0)).2.1
      (by decide) (by decide)).2,
   ((c6_amended_restore uHalf permId idTransf idTransf pdOne corrId
      ⟨"classic", some "bogus", 3⟩ ⟨1, false, "onehot"⟩ 2 (.intSeed 0)).2.2
      "bogus" (Or.inl rfl) rfl (by decide) (by decide) (by decide)
      (by decide)).2⟩

/-- C7: when criterion is None or n_samples equals 1, generate performs
exactly one sampling (one uniform-draw event), no distance and no
correlation computation, returns the inverse transform of that single unit
layout, and its whole result is independent of the configured iterations
value. -/
theorem c7_single_shot (uVal : ℕ → ℕ → ℚ) (permOf : ℕ → ℕ → ℕ → ℕ → ℕ)
    (invT trT : String → Mat → Mat) (pdistE : Mat → List ℚ)
    (corrcoefE : Mat → Mat) (self : Lhs) (space : SpaceDesc) (nSamples : ℕ)
    (rs : RState)
    (h : self.criterion = none ∨ nSamples = 1) (m : ℕ) :
    Lhs.generate uVal permOf invT trT pdistE corrcoefE
        ⟨self.lhs_type, self.criterion, m⟩ space nSamples rs
      = Lhs.generate uVal permOf invT trT pdistE corrcoefE
        self space nSamples rs
    ∧ countRand (Lhs.generate uVal permOf invT trT pdistE corrcoefE
        self space nSamples rs).2.2 = 1
    ∧ Ev.pdistCall ∉ (Lhs.generate uVal permOf invT trT pdistE corrcoefE
        self space nSamples rs).2.2
    ∧ Ev.corrcoefCall ∉ (Lhs.generate uVal permOf invT trT pdistE corrcoefE
        self space nSamples rs).2.2
    ∧ ∀ hm, (self.lhs_normalized uVal permOf space.nDims nSamples rs).1
        = .ok hm →
      (Lhs.generate uVal permOf invT trT pdistE corrcoefE
        self space nSamples rs).1 = .ok (invT transNormalize hm) := by
  refine ⟨?_, ?_, ?_, ?_, ?_⟩
  · simp [Lhs.generate, h, lhs_normalized_iterations_irrelevant]
  · rcases lhs_normalized_snd uVal permOf self space.nDims nSamples rs
        with htr | htr <;>
      cases hN : (self.lhs_normalized uVal permOf space.nDims nSamples rs).1 <;>
        cases hcat : space.isPartlyCategorical <;>
          simp [Lhs.generate, h, hN, htr, hcat, countRand, isRandEv]
  · rcases lhs_normalized_snd uVal permOf self space.nDims nSamples rs
        with htr | htr <;>
      cases hN : (self.lhs_normalized uVal permOf space.nDims nSamples rs).1 <;>
        cases hcat : space.isPartlyCategorical <;>
          simp [Lhs.generate, h, hN, htr, hcat]
  · rcases lhs_normalized_snd uVal permOf self space.nDims nSamples rs
        with htr | htr <;>
      cases hN : (self.lhs_normalized uVal permOf space.nDims nSamples rs).1 <;>
        cases hcat : space.isPartlyCategorical <;>
          simp [Lhs.generate, h, hN, htr, hcat]
  · intro hm hN
    simp [Lhs.generate, h, hN]

/-- C7 witness: the single-shot behaviour at a concrete input. -/
theorem c7_single_shot_witness :
    ((⟨"centered", none, 1000⟩ : Lhs).criterion = none ∨ (5 : ℕ) = 1)
    ∧ Lhs.generate uHalf permId idTransf idTransf pdOne corrId
        ⟨"centered", none, 3⟩ ⟨2, false, "onehot"⟩ 5 (.intSeed 0)
      = Lhs.generate uHalf permId idTransf idTransf pdOne corrId
        ⟨"centered", none, 1000⟩ ⟨2, false, "onehot"⟩ 5 (.intSeed 0)
    ∧ countRand (Lhs.generate uHalf permId idTransf idTransf pdOne corrId
        ⟨"centered", none, 1000⟩ ⟨2, false, "onehot"⟩ 5 (.intSeed 0)).2.2 = 1 :=
  ⟨Or.inl rfl,
    (c7_single_shot uHalf permId idTransf idTransf pdOne corrId
      ⟨"centered", none, 1000⟩ ⟨2, false, "onehot"⟩ 5 (.intSeed 0)
      (Or.inl rfl) 3).1,
    (c7_single_shot uHalf permId idTransf idTransf pdOne corrId
      ⟨"centered", none, 1000⟩ ⟨2, false, "onehot"⟩ 5 (.intSeed 0)
      (Or.inl rfl) 3).2.1⟩

end SkoptLhs
